import Mathlib

/-!
Verification of the keyword row-filtering engine of `src/app.py`.

Shallow embedding of the filtering block of `main` (src/app.py, lines 75-112):

* line 77: `keywords = [k.strip() for k in keyword_input.split(",")]` is
  `parseKeywords`;
* line 91: `if selected_column in df.columns:` — note there is NO else branch,
  so a missing column silently produces nothing;
* line 94: `df[selected_column] = df[selected_column].astype(str)` mutates the
  input dataframe in place: `filterStep` returns the mutated frame `dfAfter`
  alongside the (optional) result;
* line 98 (Any mode): `df[df[col].str.contains('|'.join(keywords), case=False)]`.
  pandas `str.contains` defaults to `regex=True`, so the joined keywords form a
  regular expression.  We model the regex fragment actually generated by
  metacharacter-free keywords plus the two constructs the join itself
  introduces or a keyword may contain: top-level alternation `|`, and the
  wildcard `.` (any character except a newline).  `case=False` is modelled by
  ASCII case folding of pattern literal and text characters;
* lines 101-103 (All mode): the sequential loop
  `for keyword in keywords: filtered_df = filtered_df[... .str.contains(keyword, case=False)]`
  is `allLoop`;
* lines 107-112: the statistics are computed only inside the
  `if len(filtered_df) > 0:` branch, so `matchPercentage` is an
  `Option ℚ` that is `none` when no row matched.

Cell values are modelled by `Value` (text, integer, missing), with `valueStr`
embedding pandas' `astype(str)` coercion (`NaN ↦ "nan"`).
-/

namespace KeywordFilter

/-- Strings are modelled as lists of characters. -/
abbrev Str := List Char

/-- ASCII case folding of one character (model of `case=False`). -/
def lowerChar (c : Char) : Char := c.toLower

/-- ASCII case folding of a string. -/
def lowerStr (s : Str) : Str := s.map lowerChar

/-- Python `str.strip()`: remove leading and trailing whitespace. -/
def pyStrip (s : Str) : Str :=
  ((s.dropWhile Char.isWhitespace).reverse.dropWhile Char.isWhitespace).reverse

/-- Split a string on a separator character; Python `s.split(sep)` semantics
(`"".split(sep) = [""]`, empty fragments preserved). -/
def splitOn (sep : Char) : Str → List Str
  | [] => [[]]
  | c :: rest =>
    let groups := splitOn sep rest
    if c = sep then [] :: groups
    else (c :: groups.headD []) :: groups.tail

/-- Python `sep.join(pieces)`. -/
def joinSep (sep : Char) : List Str → Str
  | [] => []
  | [k] => k
  | k :: ks => k ++ sep :: joinSep sep ks

/-- Line 77 of src/app.py: split the raw input on commas and strip each token. -/
def parseKeywords (input : Str) : List Str :=
  (splitOn ',' input).map pyStrip

/-- One pattern character matched against one text character: `.` is the regex
wildcard (any character except a newline), every other character matches
case-insensitively as a literal. -/
def tokMatch (p c : Char) : Bool :=
  if p = '.' then c != '\n' else lowerChar p == lowerChar c

/-- Match one alternation-free pattern against a prefix of the text. -/
def matchAlt : Str → Str → Bool
  | [], _ => true
  | _ :: _, [] => false
  | p :: ps, c :: cs => tokMatch p c && matchAlt ps cs

/-- Search of one alternation-free pattern (Python `re.search`): try every
start position. -/
def altSearch (alt : Str) : Str → Bool
  | [] => matchAlt alt []
  | c :: cs => matchAlt alt (c :: cs) || altSearch alt cs

/-- pandas `Series.str.contains(pat, case=False)` on one cell, for patterns in
the modelled regex fragment: split the pattern on top-level `|` and search each
alternative anywhere in the text. -/
def patContains (pat s : Str) : Bool :=
  (splitOn '|' pat).any (fun alt => altSearch alt s)

/-- Characters that are metacharacters of Python's `re` syntax.  The regex
model above is faithful to Python exactly for patterns whose characters are
either not in this set, the wildcard `.`, or the alternation bar `|`. -/
def isMeta (c : Char) : Bool :=
  c == '.' || c == '^' || c == '$' || c == '*' || c == '+' || c == '?' ||
  c == '\x7b' || c == '\x7d' || c == '[' || c == ']' || c == '\\' ||
  c == '|' || c == '(' || c == ')'

/-- A keyword free of regex metacharacters: the pattern it contributes matches
purely literally. -/
def metaFree (k : Str) : Bool := k.all (fun c => !isMeta c)

/-- The spec's notion of a match: the keyword occurs as a case-insensitive
literal substring of the cell text. -/
def ciSubstr (k s : Str) : Prop := List.IsInfix (lowerStr k) (lowerStr s)

instance (k s : Str) : Decidable (ciSubstr k s) := by
  unfold ciSubstr; infer_instance

/-- A cell value: pandas cells are text, numbers, or missing (`NaN`). -/
inductive Value where
  | vStr (s : Str)
  | vNum (n : Int)
  | vNan
deriving DecidableEq, Repr

/-- pandas `astype(str)` on one cell (`NaN` renders as `"nan"`). -/
def valueStr : Value → Str
  | .vStr s => s
  | .vNum n => (toString n).data
  | .vNan => ['n', 'a', 'n']

/-- A dataframe: named columns and rows of cells, positionally aligned. -/
structure Table where
  cols : List Str
  rows : List (List Value)
deriving DecidableEq, Repr

/-- Index of the selected column among the column names. -/
def targetIdx (t : Table) (col : Str) : Nat :=
  t.cols.findIdx (fun c => c == col)

/-- Text of the target cell of a row (after coercion this is the cell itself). -/
def cellText (i : Nat) (row : List Value) : Str :=
  valueStr (row.getD i Value.vNan)

/-- Line 94: `astype(str)` on the target column, applied to one row. -/
def coerceRow (i : Nat) (row : List Value) : List Value :=
  row.set i (Value.vStr (cellText i row))

/-- The two radio-button choices of line 82-86. -/
inductive Mode where
  | anyKw
  | allKw
deriving DecidableEq, Repr

/-- Line 98 (Any mode): one combined `str.contains` over the `'|'`-join. -/
def anyPred (keywords : List Str) (i : Nat) (row : List Value) : Bool :=
  patContains (joinSep '|' keywords) (cellText i row)

/-- The per-keyword containment test of line 103. -/
def kwPred (k : Str) (i : Nat) (row : List Value) : Bool :=
  patContains k (cellText i row)

/-- Lines 101-103 (All mode): filter by each keyword in turn. -/
def allLoop (i : Nat) (keywords : List Str) (rows : List (List Value)) :
    List (List Value) :=
  keywords.foldl (fun acc k => acc.filter (kwPred k i)) rows

/-- The rows kept by the selected filter method (lines 96-103), applied to the
already-coerced rows. -/
def filteredRows (i : Nat) (keywords : List Str) (mode : Mode)
    (rows : List (List Value)) : List (List Value) :=
  match mode with
  | .anyKw => rows.filter (anyPred keywords i)
  | .allKw => allLoop i keywords rows

/-- The result displayed in lines 106-141: the filtered table and the
statistics of lines 110-112.  The percentage is computed only inside the
`if len(filtered_df) > 0:` branch, hence the `Option`. -/
structure FilterResult where
  table : Table
  matchedCount : Nat
  totalCount : Nat
  matchPercentage : Option ℚ
deriving DecidableEq, Repr

/-- Observable outcome of one click of the Filter button: the dataframe as it
stands afterwards (line 94 mutates it), and the result, `none` when the
column-membership guard of line 91 failed (its `if` has no else branch). -/
structure StepOutcome where
  dfAfter : Table
  result : Option FilterResult
deriving DecidableEq, Repr

/-- Lines 91-112 of src/app.py: the whole filtering step. -/
def filterStep (df : Table) (col : Str) (keywords : List Str) (mode : Mode) :
    StepOutcome :=
  if df.cols.contains col then
    let i := targetIdx df col
    let coerced := df.rows.map (coerceRow i)
    let kept := filteredRows i keywords mode coerced
    let matched := kept.length
    let total := coerced.length
    let pct : Option ℚ :=
      if matched > 0 then some ((matched : ℚ) / (total : ℚ) * 100) else none
    { dfAfter := { cols := df.cols, rows := coerced },
      result := some
        { table := { cols := df.cols, rows := kept },
          matchedCount := matched, totalCount := total,
          matchPercentage := pct } }
  else
    { dfAfter := df, result := none }

/-! ## Pattern-model lemmas -/

theorem splitOn_ne_nil (sep : Char) (s : Str) : splitOn sep s ≠ [] := by
  induction s with
  | nil => simp [splitOn]
  | cons c rest ih =>
    simp only [splitOn]
    by_cases h : c = sep
    · simp [h]
    · simp [h]

theorem splitOn_append (sep : Char) (a b : Str) :
    splitOn sep (a ++ sep :: b) = splitOn sep a ++ splitOn sep b := by
  induction a with
  | nil => simp [splitOn]
  | cons c rest ih =>
    show splitOn sep (c :: (rest ++ sep :: b)) = splitOn sep (c :: rest) ++ splitOn sep b
    by_cases h : c = sep
    · simp [splitOn, h, ih]
    · cases hsp : splitOn sep rest with
      | nil => exact absurd hsp (splitOn_ne_nil sep rest)
      | cons g gs => simp [splitOn, h, ih, hsp]

theorem splitOn_no_sep (sep : Char) (s : Str) (h : ∀ c ∈ s, ¬ c = sep) :
    splitOn sep s = [s] := by
  induction s with
  | nil => rfl
  | cons c rest ih =>
    have hc : ¬ c = sep := h c (List.mem_cons_self c rest)
    have hr := ih (fun x hx => h x (List.mem_cons_of_mem c hx))
    simp [splitOn, hc, hr]

theorem mem_splitOn_joinSep (sep : Char) (ks : List Str) (k : Str) (hk : k ∈ ks)
    (alt : Str) (ha : alt ∈ splitOn sep k) :
    alt ∈ splitOn sep (joinSep sep ks) := by
  induction ks with
  | nil => cases hk
  | cons k0 ks' ih =>
    cases ks' with
    | nil =>
      have hEq : k = k0 := by simpa using hk
      subst hEq
      simpa [joinSep] using ha
    | cons k1 rest =>
      rw [show joinSep sep (k0 :: k1 :: rest) = k0 ++ sep :: joinSep sep (k1 :: rest) from rfl,
        splitOn_append]
      rcases List.mem_cons.mp hk with h | h
      · subst h; exact List.mem_append_left _ ha
      · exact List.mem_append_right _ (ih h)

theorem matchAlt_nil (t : Str) : matchAlt [] t = true := by
  cases t <;> rfl

theorem altSearch_iff (alt s : Str) :
    altSearch alt s = true ↔ ∃ n, matchAlt alt (s.drop n) = true := by
  induction s with
  | nil =>
    constructor
    · intro h; exact ⟨0, h⟩
    · rintro ⟨n, hn⟩; simpa using hn
  | cons c cs ih =>
    simp only [altSearch, Bool.or_eq_true, ih]
    constructor
    · rintro (h | ⟨n, hn⟩)
      · exact ⟨0, h⟩
      · exact ⟨n + 1, by simpa using hn⟩
    · rintro ⟨n, hn⟩
      cases n with
      | zero => exact Or.inl hn
      | succ m => exact Or.inr ⟨m, by simpa using hn⟩

theorem metaFree_not_mem (k : Str) (h : metaFree k = true) (c : Char)
    (hc : c ∈ k) (hm : isMeta c = true) : False := by
  have := (List.all_eq_true.mp h) c hc
  rw [hm] at this
  simp at this

theorem matchAlt_iff_starts (k : Str) (h : metaFree k = true) (t : Str) :
    matchAlt k t = true ↔ List.IsPrefix (lowerStr k) (lowerStr t) := by
  induction k generalizing t with
  | nil =>
    simp [matchAlt_nil, lowerStr]
  | cons p ps ih =>
    have hps : metaFree ps = true := by
      apply List.all_eq_true.mpr
      intro x hx
      exact (List.all_eq_true.mp h) x (List.mem_cons_of_mem p hx)
    have hpdot : ¬ p = '.' := by
      intro hEq
      exact metaFree_not_mem (p :: ps) h p (List.mem_cons_self p ps) (by rw [hEq]; rfl)
    cases t with
    | nil =>
      simp [matchAlt, lowerStr, List.prefix_nil]
    | cons c cs =>
      simp only [matchAlt, tokMatch, if_neg hpdot, Bool.and_eq_true, beq_iff_eq, ih hps,
        lowerStr, List.map_cons, List.cons_prefix_cons]

theorem infix_iff_exists_drop {α : Type} (u v : List α) :
    List.IsInfix u v ↔ ∃ n, List.IsPrefix u (v.drop n) := by
  rw [List.infix_iff_prefix_suffix]
  constructor
  · rintro ⟨t, hp, hs⟩
    rcases hs with ⟨w, hw⟩
    exact ⟨w.length, by rw [← hw, List.drop_left]; exact hp⟩
  · rintro ⟨n, hn⟩
    exact ⟨v.drop n, hn, List.drop_suffix n v⟩

theorem patContains_iff_ciSubstr (k s : Str) (h : metaFree k = true) :
    patContains k s = true ↔ ciSubstr k s := by
  have hsplit : splitOn '|' k = [k] :=
    splitOn_no_sep '|' k (fun c hc hEq =>
      metaFree_not_mem k h c hc (by rw [hEq]; rfl))
  unfold patContains
  rw [hsplit]
  simp only [List.any_cons, List.any_nil, Bool.or_false]
  rw [altSearch_iff]
  unfold ciSubstr
  rw [infix_iff_exists_drop]
  constructor
  · rintro ⟨n, hn⟩
    refine ⟨n, ?_⟩
    have hpre := (matchAlt_iff_starts k h (s.drop n)).mp hn
    simp only [lowerStr] at hpre ⊢
    rwa [List.map_drop] at hpre
  · rintro ⟨n, hn⟩
    refine ⟨n, (matchAlt_iff_starts k h (s.drop n)).mpr ?_⟩
    simp only [lowerStr] at hn ⊢
    rwa [List.map_drop]

theorem patContains_nil (s : Str) : patContains [] s = true := by
  have hsearch : altSearch [] s = true := (altSearch_iff [] s).mpr ⟨0, matchAlt_nil _⟩
  simp [patContains, splitOn, hsearch]

/-! ## Filtering-step lemmas -/

/-- The retention predicate of the selected mode, as a single row test. -/
def modePred (ks : List Str) (m : Mode) (i : Nat) (row : List Value) : Bool :=
  match m with
  | .anyKw => anyPred ks i row
  | .allKw => ks.all (fun k => kwPred k i row)

theorem allLoop_eq_filter (i : Nat) (ks : List Str) (rows : List (List Value)) :
    allLoop i ks rows = rows.filter (fun row => ks.all (fun k => kwPred k i row)) := by
  induction ks generalizing rows with
  | nil =>
    show rows = rows.filter (fun row => List.all [] (fun k => kwPred k i row))
    simp
  | cons k ks' ih =>
    show allLoop i ks' (rows.filter (kwPred k i)) = _
    rw [ih, List.filter_filter]
    apply List.filter_congr
    intro x _
    simp [List.all_cons, Bool.and_comm]

theorem filteredRows_eq_filter (i : Nat) (ks : List Str) (m : Mode)
    (rows : List (List Value)) :
    filteredRows i ks m rows = rows.filter (modePred ks m i) := by
  cases m
  · rfl
  · exact allLoop_eq_filter i ks rows

theorem cellText_coerceRow (i : Nat) (row : List Value) :
    cellText i (coerceRow i row) = cellText i row := by
  unfold cellText coerceRow
  rw [List.getD_eq_getElem?_getD, List.getD_eq_getElem?_getD, List.getElem?_set]
  by_cases h : i < row.length
  · simp [h, valueStr, cellText]
  · simp [h, List.getElem?_eq_none (Nat.le_of_not_lt h)]

theorem coerceRow_idem (i : Nat) (row : List Value) :
    coerceRow i (coerceRow i row) = coerceRow i row := by
  show (coerceRow i row).set i (Value.vStr (cellText i (coerceRow i row))) = coerceRow i row
  rw [cellText_coerceRow]
  show (row.set i _).set i _ = _
  rw [List.set_set]
  rfl

/-- The target column coerced to text (line 94), as the full row list. -/
def coercedRows (t : Table) (col : Str) : List (List Value) :=
  t.rows.map (coerceRow (targetIdx t col))

/-- The rows the selected filter method keeps (lines 96-103). -/
def keptRows (t : Table) (col : Str) (ks : List Str) (m : Mode) :
    List (List Value) :=
  filteredRows (targetIdx t col) ks m (coercedRows t col)

/-- The percentage of line 111, computed only when some row matched. -/
def stepPct (t : Table) (col : Str) (ks : List Str) (m : Mode) : Option ℚ :=
  if 0 < (keptRows t col ks m).length then
    some (((keptRows t col ks m).length : ℚ) /
      ((coercedRows t col).length : ℚ) * 100)
  else none

/-- The full filter-step result when the column-membership guard passes. -/
def stepResult (t : Table) (col : Str) (ks : List Str) (m : Mode) : FilterResult :=
  { table := { cols := t.cols, rows := keptRows t col ks m },
    matchedCount := (keptRows t col ks m).length,
    totalCount := (coercedRows t col).length,
    matchPercentage := stepPct t col ks m }

theorem filterStep_of_contains (t : Table) (col : Str) (ks : List Str) (m : Mode)
    (h : t.cols.contains col = true) :
    filterStep t col ks m =
      { dfAfter := { cols := t.cols, rows := coercedRows t col },
        result := some (stepResult t col ks m) } := by
  unfold filterStep
  rw [if_pos h]
  rfl

theorem filterStep_of_not_contains (t : Table) (col : Str) (ks : List Str) (m : Mode)
    (h : ¬ t.cols.contains col = true) :
    filterStep t col ks m = { dfAfter := t, result := none } := by
  unfold filterStep
  rw [if_neg h]

theorem contains_of_result_some (t : Table) (col : Str) (ks : List Str) (m : Mode)
    (res : FilterResult) (h : (filterStep t col ks m).result = some res) :
    t.cols.contains col = true := by
  by_contra hc
  rw [filterStep_of_not_contains t col ks m hc] at h
  cases h

theorem allPred_imp_anyPred (ks : List Str) (hks : ks ≠ []) (i : Nat)
    (row : List Value) (h : ks.all (fun k => kwPred k i row) = true) :
    anyPred ks i row = true := by
  cases ks with
  | nil => exact absurd rfl hks
  | cons k0 ks' =>
    have h0 : kwPred k0 i row = true :=
      (List.all_eq_true.mp h) k0 (List.mem_cons_self k0 ks')
    obtain ⟨alt, hmem, hsearch⟩ := List.any_eq_true.mp h0
    exact List.any_eq_true.mpr
      ⟨alt, mem_splitOn_joinSep '|' (k0 :: ks') k0 (List.mem_cons_self k0 ks') alt hmem,
        hsearch⟩

theorem keptRows_eq (t : Table) (col : Str) (ks : List Str) (m : Mode) :
    keptRows t col ks m =
      (coercedRows t col).filter (modePred ks m (targetIdx t col)) := by
  unfold keptRows
  exact filteredRows_eq_filter _ _ _ _

theorem all_filter_nonempty (l : List Str) (p : Str → Bool) (hp : p [] = true) :
    (l.filter (fun k => !k.isEmpty)).all p = l.all p := by
  induction l with
  | nil => rfl
  | cons k ks ih =>
    cases k with
    | nil => simp [List.filter_cons, List.all_cons, hp, ih]
    | cons c rest => simp [List.filter_cons, List.all_cons, ih]

/-! ## Concrete fixtures -/

def fruitCol : Str := "fruit".data

def applePie : Str := "apple pie".data

def orangeJuice : Str := "orange juice".data

def bananaSplit : Str := "banana split".data

def grapeSoda : Str := "grape soda".data

def kwApple : Str := "apple".data

def kwGrape : Str := "grape".data

def kwA : Str := "a".data

def kwADotB : Str := "a.b".data

def axbText : Str := "axb".data

def colMissing : Str := "missing".data

def colN : Str := "n".data

def kwFour : Str := "4".data

def colC : Str := "c".data

def kwX : Str := "x".data

def kwInputMixed : Str := "apple,,banana".data

/-- The scenario table of spec §8. -/
def fruitTable : Table :=
  { cols := [fruitCol],
    rows := [[Value.vStr applePie], [Value.vStr orangeJuice],
             [Value.vStr bananaSplit], [Value.vStr grapeSoda]] }

/-- One-row table whose cell "axb" exhibits the regex-wildcard behavior. -/
def dotTable : Table := { cols := [colC], rows := [[Value.vStr axbText]] }

/-- One-row table with a numeric cell, to observe the line-94 mutation. -/
def numTable : Table := { cols := [colN], rows := [[Value.vNum 42]] }

/-- A zero-row table. -/
def emptyTable : Table := { cols := [colC], rows := [] }

/-- Placeholder used by `resultOf` when no result was produced. -/
def fallbackResult : FilterResult :=
  { table := { cols := [], rows := [] }, matchedCount := 0, totalCount := 0,
    matchPercentage := none }

/-- Extract the produced result of a filter step (fallback when none). -/
def resultOf (o : StepOutcome) : FilterResult :=
  match o.result with
  | some r => r
  | none => fallbackResult

/-! ## Claims -/

/-- C1: REFUTED on the code (code bug).  Line 98 hands `'|'.join(keywords)` to
pandas `str.contains`, whose default is `regex=True`, so a keyword "a.b" acts
as a pattern in which `.` matches any character: in Any mode the row with cell
"axb" IS retained (matchedCount 1), although "a.b" is not a case-insensitive
literal substring of "axb".  The spec's literal-matching requirement is the
stated intent ("plain keyword search, not pattern search"), so the code is the
slip. -/
theorem c1_anyMode_dot_matches_nonliteral :
    (filterStep dotTable colC [kwADotB] Mode.anyKw).result.map
        (fun r => (r.table.rows, r.matchedCount)) =
      some ([[Value.vStr axbText]], 1) ∧
    ¬ ciSubstr kwADotB axbText := by
  constructor
  · rfl
  · decide

/-- C2 counterexample: the claimed iff fails for keyword lists containing regex
metacharacters; line 103's `str.contains` is also regex-based, so in All mode
the keyword "a.b" retains the row with cell "axb" even though "a.b" is not a
case-insensitive substring of "axb". -/
theorem c2_counterexample :
    (filterStep dotTable colC [kwADotB] Mode.allKw).result.map
        (fun r => r.table.rows) =
      some [[Value.vStr axbText]] ∧
    ¬ ciSubstr kwADotB axbText := by
  constructor
  · rfl
  · decide

/-- C2 (amended): for keyword lists free of regex metacharacters — the only
case in which the code's regex `contains` matches literally — a row is
retained in All mode iff every keyword occurs as a case-insensitive substring
of the coerced target-column text of that row. -/
theorem c2_allMode_iff_every_substr (t : Table) (col : Str) (ks : List Str)
    (hmeta : ∀ k ∈ ks, metaFree k = true) (res : FilterResult)
    (hres : (filterStep t col ks Mode.allKw).result = some res)
    (row : List Value) :
    row ∈ res.table.rows ↔
      row ∈ coercedRows t col ∧
        ∀ k ∈ ks, ciSubstr k (cellText (targetIdx t col) row) := by
  have hcol := contains_of_result_some t col ks Mode.allKw res hres
  rw [filterStep_of_contains t col ks Mode.allKw hcol] at hres
  have e : stepResult t col ks Mode.allKw = res := Option.some.inj hres
  subst e
  show row ∈ keptRows t col ks Mode.allKw ↔ _
  rw [keptRows_eq, List.mem_filter]
  constructor
  · rintro ⟨hmem, hpred⟩
    refine ⟨hmem, fun k hk => ?_⟩
    have hone : kwPred k (targetIdx t col) row = true :=
      (List.all_eq_true.mp hpred) k hk
    exact (patContains_iff_ciSubstr k _ (hmeta k hk)).mp hone
  · rintro ⟨hmem, hall⟩
    refine ⟨hmem, List.all_eq_true.mpr fun k hk => ?_⟩
    exact (patContains_iff_ciSubstr k _ (hmeta k hk)).mpr (hall k hk)

/-- Witness for C2's amended theorem at a concrete instance. -/
theorem c2_allMode_iff_every_substr_witness :
    [Value.vStr applePie] ∈
        (resultOf (filterStep fruitTable fruitCol [kwApple] Mode.allKw)).table.rows ↔
      [Value.vStr applePie] ∈ coercedRows fruitTable fruitCol ∧
        ∀ k ∈ [kwApple],
          ciSubstr k (cellText (targetIdx fruitTable fruitCol) [Value.vStr applePie]) :=
  c2_allMode_iff_every_substr fruitTable fruitCol [kwApple] (by decide)
    (resultOf (filterStep fruitTable fruitCol [kwApple] Mode.allKw)) rfl
    [Value.vStr applePie]

/-- C3: for every table, column and non-empty keyword list, every row retained
in All mode is also retained in Any mode (mode monotonicity). -/
theorem c3_allMode_subset_anyMode (t : Table) (col : Str) (ks : List Str)
    (hks : ks ≠ []) (resAll resAny : FilterResult)
    (hAll : (filterStep t col ks Mode.allKw).result = some resAll)
    (hAny : (filterStep t col ks Mode.anyKw).result = some resAny)
    (row : List Value) (hrow : row ∈ resAll.table.rows) :
    row ∈ resAny.table.rows := by
  have hcol := contains_of_result_some t col ks Mode.allKw resAll hAll
  rw [filterStep_of_contains t col ks Mode.allKw hcol] at hAll
  rw [filterStep_of_contains t col ks Mode.anyKw hcol] at hAny
  have e1 : stepResult t col ks Mode.allKw = resAll := Option.some.inj hAll
  have e2 : stepResult t col ks Mode.anyKw = resAny := Option.some.inj hAny
  subst e1
  subst e2
  have hrow' : row ∈
      (coercedRows t col).filter (modePred ks Mode.allKw (targetIdx t col)) := by
    rw [← keptRows_eq]
    exact hrow
  obtain ⟨hmem, hpred⟩ := List.mem_filter.mp hrow'
  show row ∈ keptRows t col ks Mode.anyKw
  rw [keptRows_eq]
  exact List.mem_filter.mpr ⟨hmem, allPred_imp_anyPred ks hks _ row hpred⟩

/-- Witness for C3 at a concrete instance. -/
theorem c3_allMode_subset_anyMode_witness :
    [Value.vStr applePie] ∈
      (resultOf (filterStep fruitTable fruitCol [kwA] Mode.anyKw)).table.rows :=
  c3_allMode_subset_anyMode fruitTable fruitCol [kwA] (by decide)
    (resultOf (filterStep fruitTable fruitCol [kwA] Mode.allKw))
    (resultOf (filterStep fruitTable fruitCol [kwA] Mode.anyKw)) rfl rfl
    [Value.vStr applePie] (by decide)

/-- C4: filtering the filtered table again with the same column, keywords and
mode yields the same table — no further rows are removed (idempotence).  The
re-coercion of line 94 is the identity on already-coerced rows, and every kept
row still satisfies the same retention predicate. -/
theorem c4_filterStep_idempotent (t : Table) (col : Str) (ks : List Str)
    (m : Mode) (res res2 : FilterResult)
    (h1 : (filterStep t col ks m).result = some res)
    (h2 : (filterStep res.table col ks m).result = some res2) :
    res2.table = res.table := by
  have hcol := contains_of_result_some t col ks m res h1
  rw [filterStep_of_contains t col ks m hcol] at h1
  have e1 : stepResult t col ks m = res := Option.some.inj h1
  subst e1
  have hcol2 : (stepResult t col ks m).table.cols.contains col = true := hcol
  rw [filterStep_of_contains _ col ks m hcol2] at h2
  have e2 : stepResult (stepResult t col ks m).table col ks m = res2 :=
    Option.some.inj h2
  subst e2
  have hidx : targetIdx (stepResult t col ks m).table col = targetIdx t col := rfl
  have hmemc : ∀ row ∈ (stepResult t col ks m).table.rows,
      coerceRow (targetIdx t col) row = row := by
    intro row hrow
    have hrow' : row ∈
        (coercedRows t col).filter (modePred ks m (targetIdx t col)) := by
      rw [← keptRows_eq]
      exact hrow
    obtain ⟨hmem, _⟩ := List.mem_filter.mp hrow'
    obtain ⟨orig, _, horig⟩ := List.mem_map.mp hmem
    rw [← horig]
    exact coerceRow_idem _ _
  have hcoerce2 : coercedRows (stepResult t col ks m).table col =
      (stepResult t col ks m).table.rows := by
    unfold coercedRows
    rw [hidx]
    calc (stepResult t col ks m).table.rows.map (coerceRow (targetIdx t col))
        = (stepResult t col ks m).table.rows.map id := List.map_congr_left hmemc
      _ = (stepResult t col ks m).table.rows := List.map_id _
  have hpred : ∀ row ∈ (stepResult t col ks m).table.rows,
      modePred ks m (targetIdx t col) row = true := by
    intro row hrow
    have hrow' : row ∈
        (coercedRows t col).filter (modePred ks m (targetIdx t col)) := by
      rw [← keptRows_eq]
      exact hrow
    exact (List.mem_filter.mp hrow').2
  have hkept : keptRows (stepResult t col ks m).table col ks m =
      (stepResult t col ks m).table.rows := by
    rw [keptRows_eq, hidx, hcoerce2]
    exact List.filter_eq_self.mpr hpred
  have hfin : Table.mk (stepResult t col ks m).table.cols
        (keptRows (stepResult t col ks m).table col ks m) =
      Table.mk (stepResult t col ks m).table.cols
        (stepResult t col ks m).table.rows := by
    rw [hkept]
  exact hfin

/-- Witness for C4 at a concrete instance. -/
theorem c4_filterStep_idempotent_witness :
    (resultOf (filterStep
        (resultOf (filterStep fruitTable fruitCol [kwApple] Mode.anyKw)).table
        fruitCol [kwApple] Mode.anyKw)).table =
      (resultOf (filterStep fruitTable fruitCol [kwApple] Mode.anyKw)).table :=
  c4_filterStep_idempotent fruitTable fruitCol [kwApple] Mode.anyKw
    (resultOf (filterStep fruitTable fruitCol [kwApple] Mode.anyKw))
    (resultOf (filterStep
      (resultOf (filterStep fruitTable fruitCol [kwApple] Mode.anyKw)).table
      fruitCol [kwApple] Mode.anyKw)) rfl rfl

/-- C5: the retained rows appear in the output in input order: the output row
list is a sublist (order-preserving selection) of the coerced input rows,
whose i-th entry is the text-coerced image of the i-th input row. -/
theorem c5_order_preserved (t : Table) (col : Str) (ks : List Str) (m : Mode)
    (res : FilterResult)
    (hres : (filterStep t col ks m).result = some res) :
    res.table.rows.Sublist (coercedRows t col) := by
  have hcol := contains_of_result_some t col ks m res hres
  rw [filterStep_of_contains t col ks m hcol] at hres
  have e : stepResult t col ks m = res := Option.some.inj hres
  subst e
  show (keptRows t col ks m).Sublist (coercedRows t col)
  rw [keptRows_eq]
  exact List.filter_sublist _

/-- Witness for C5 at a concrete instance. -/
theorem c5_order_preserved_witness :
    (resultOf (filterStep fruitTable fruitCol [kwGrape] Mode.anyKw)).table.rows.Sublist
      (coercedRows fruitTable fruitCol) :=
  c5_order_preserved fruitTable fruitCol [kwGrape] Mode.anyKw
    (resultOf (filterStep fruitTable fruitCol [kwGrape] Mode.anyKw)) rfl

/-- C6 counterexample: on a zero-row table the code produces `matchedCount = 0`
and `totalCount = 0` but NO `matchPercentage` at all — the percentage of line
111 is computed only inside the `if len(filtered_df) > 0:` branch of line 107,
so the outcome carries `none`, not `0`. -/
theorem c6_counterexample :
    (filterStep emptyTable colC [kwX] Mode.anyKw).result =
      some { table := { cols := [colC], rows := [] }, matchedCount := 0,
             totalCount := 0, matchPercentage := none } ∧
    ((none : Option ℚ) = some 0 → False) := by
  refine ⟨rfl, fun h => ?_⟩
  cases h

/-- C6 (amended): filtering a zero-row table yields `matchedCount = 0` and
`totalCount = 0`, and no percentage is computed (`matchPercentage = none`), so
the division of line 111 is never executed and no division-by-zero can
occur. -/
theorem c6_zero_rows_stats (t : Table) (col : Str) (ks : List Str) (m : Mode)
    (res : FilterResult) (hrows : t.rows = [])
    (hres : (filterStep t col ks m).result = some res) :
    res.matchedCount = 0 ∧ res.totalCount = 0 ∧ res.matchPercentage = none := by
  have hcol := contains_of_result_some t col ks m res hres
  rw [filterStep_of_contains t col ks m hcol] at hres
  have e : stepResult t col ks m = res := Option.some.inj hres
  subst e
  have hc : coercedRows t col = [] := by
    unfold coercedRows
    rw [hrows]
    rfl
  have hk : keptRows t col ks m = [] := by
    rw [keptRows_eq, hc]
    rfl
  refine ⟨?_, ?_, ?_⟩
  · show (keptRows t col ks m).length = 0
    rw [hk]
    rfl
  · show (coercedRows t col).length = 0
    rw [hc]
    rfl
  · show stepPct t col ks m = none
    unfold stepPct
    rw [hk]
    rfl

/-- Witness for C6's amended theorem at a concrete instance. -/
theorem c6_zero_rows_stats_witness :
    (resultOf (filterStep emptyTable colC [kwX] Mode.allKw)).matchedCount = 0 ∧
    (resultOf (filterStep emptyTable colC [kwX] Mode.allKw)).totalCount = 0 ∧
    (resultOf (filterStep emptyTable colC [kwX] Mode.allKw)).matchPercentage = none :=
  c6_zero_rows_stats emptyTable colC [kwX] Mode.allKw
    (resultOf (filterStep emptyTable colC [kwX] Mode.allKw)) rfl rfl

/-- C7 counterexample: for a column absent from the table the code produces no
result AND surfaces no error — the `if selected_column in df.columns:` of line
91 has no else branch, so the step is silently skipped and the dataframe is
untouched.  This refutes the claim that a `ColumnNotFound` error is surfaced
to the caller. -/
theorem c7_counterexample :
    (filterStep fruitTable colMissing [kwA] Mode.anyKw).result = none ∧
    (filterStep fruitTable colMissing [kwA] Mode.anyKw).dfAfter = fruitTable := by
  exact ⟨rfl, rfl⟩

/-- C7 (amended): when the requested column is not among the table's columns,
no filtered result is produced, but the operation is silently skipped — the
outcome is `none` with the dataframe unchanged, and no error of any kind is
raised (the outcome type has no error channel because the source has none). -/
theorem c7_missing_column_silently_skipped (t : Table) (col : Str)
    (ks : List Str) (m : Mode) (h : t.cols.contains col = false) :
    filterStep t col ks m = { dfAfter := t, result := none } := by
  apply filterStep_of_not_contains
  rw [h]
  exact Bool.false_ne_true

/-- Witness for C7's amended theorem at a concrete instance. -/
theorem c7_missing_column_witness :
    filterStep fruitTable colMissing [kwApple] Mode.allKw =
      { dfAfter := fruitTable, result := none } :=
  c7_missing_column_silently_skipped fruitTable colMissing [kwApple] Mode.allKw
    (by decide)

/-- C8: the spec's Any-mode scenario — fruit table, keywords "apple" and
"grape" — retains exactly "apple pie" and "grape soda" in that order, with
matchedCount 2, totalCount 4 and matchPercentage 50. -/
theorem c8_fruit_scenario :
    (filterStep fruitTable fruitCol [kwApple, kwGrape] Mode.anyKw).result =
      some { table := Table.mk [fruitCol] [[Value.vStr applePie], [Value.vStr grapeSoda]],
             matchedCount := 2, totalCount := 4, matchPercentage := some 50 } := by
  have hq : (50 : ℚ) = ((2 : ℕ) : ℚ) / ((4 : ℕ) : ℚ) * 100 := by norm_num
  rw [hq]
  rfl

/-- C9 counterexample: the operation is NOT free of side effects on the input
table — line 94 reassigns the target column via `astype(str)`, so a numeric
cell 42 becomes the string "42" in the input dataframe itself. -/
theorem c9_counterexample :
    (filterStep numTable colN [kwFour] Mode.anyKw).dfAfter ≠ numTable := by
  decide

/-- C9 (amended): the only effect on the input table is the line-94 coercion:
afterwards the column names are unchanged, the rows are exactly the original
rows with the target cell replaced by its text coercion, and every non-target
cell of every row is untouched.  The outcome remains a pure function of the
inputs. -/
theorem c9_frame_only_target_coerced (t : Table) (col : Str) (ks : List Str)
    (m : Mode) (hcol : t.cols.contains col = true) :
    (filterStep t col ks m).dfAfter.cols = t.cols ∧
    (filterStep t col ks m).dfAfter.rows = coercedRows t col ∧
    ∀ row ∈ t.rows, ∀ j, j ≠ targetIdx t col →
      (coerceRow (targetIdx t col) row).getD j Value.vNan =
        row.getD j Value.vNan := by
  rw [filterStep_of_contains t col ks m hcol]
  refine ⟨rfl, rfl, ?_⟩
  intro row _ j hj
  unfold coerceRow
  rw [List.getD_eq_getElem?_getD, List.getD_eq_getElem?_getD,
    List.getElem?_set_ne (fun hEq => hj hEq.symm)]

/-- Witness for C9's amended theorem at a concrete instance. -/
theorem c9_frame_only_target_coerced_witness :
    (filterStep numTable colN [kwFour] Mode.allKw).dfAfter.cols = numTable.cols ∧
    (filterStep numTable colN [kwFour] Mode.allKw).dfAfter.rows =
      coercedRows numTable colN ∧
    ∀ row ∈ numTable.rows, ∀ j, j ≠ targetIdx numTable colN →
      (coerceRow (targetIdx numTable colN) row).getD j Value.vNan =
        row.getD j Value.vNan :=
  c9_frame_only_target_coerced numTable colN [kwFour] Mode.allKw (by decide)

/-- C10: when the keyword list contains an empty token, Any mode retains every
row (the empty alternative of the joined pattern matches everywhere), while in
All mode dropping the empty tokens does not change the outcome at all
(`str.contains("")` is always true). -/
theorem c10_empty_token (t : Table) (col : Str) (ks : List Str)
    (hcol : t.cols.contains col = true) (hnil : [] ∈ ks) (resA : FilterResult)
    (hresA : (filterStep t col ks Mode.anyKw).result = some resA) :
    resA.table.rows = coercedRows t col ∧
    filterStep t col ks Mode.allKw =
      filterStep t col (ks.filter (fun k => !k.isEmpty)) Mode.allKw := by
  rw [filterStep_of_contains t col ks Mode.anyKw hcol] at hresA
  have e : stepResult t col ks Mode.anyKw = resA := Option.some.inj hresA
  subst e
  constructor
  · show keptRows t col ks Mode.anyKw = coercedRows t col
    rw [keptRows_eq]
    apply List.filter_eq_self.mpr
    intro row _
    show anyPred ks (targetIdx t col) row = true
    unfold anyPred patContains
    apply List.any_eq_true.mpr
    refine ⟨[], ?_, (altSearch_iff [] _).mpr ⟨0, matchAlt_nil _⟩⟩
    refine mem_splitOn_joinSep '|' ks [] hnil [] ?_
    rw [show splitOn '|' [] = [[]] from rfl]
    exact List.mem_singleton.mpr rfl
  · have hkept : keptRows t col ks Mode.allKw =
        keptRows t col (ks.filter (fun k => !k.isEmpty)) Mode.allKw := by
      rw [keptRows_eq, keptRows_eq]
      apply List.filter_congr
      intro row _
      show ks.all (fun k => kwPred k (targetIdx t col) row) =
        (ks.filter (fun k => !k.isEmpty)).all
          (fun k => kwPred k (targetIdx t col) row)
      exact (all_filter_nonempty ks (fun k => kwPred k (targetIdx t col) row)
        (patContains_nil (cellText (targetIdx t col) row))).symm
    have hpct : stepPct t col ks Mode.allKw =
        stepPct t col (ks.filter (fun k => !k.isEmpty)) Mode.allKw := by
      unfold stepPct
      rw [hkept]
    rw [filterStep_of_contains t col ks Mode.allKw hcol,
      filterStep_of_contains t col (ks.filter (fun k => !k.isEmpty)) Mode.allKw hcol]
    unfold stepResult
    rw [hkept, hpct]

/-- Witness for C10 at a concrete instance, with the keyword list derived by
line 77 from the raw input "apple,,banana". -/
theorem c10_empty_token_witness :
    (resultOf (filterStep fruitTable fruitCol (parseKeywords kwInputMixed)
        Mode.anyKw)).table.rows = coercedRows fruitTable fruitCol ∧
    filterStep fruitTable fruitCol (parseKeywords kwInputMixed) Mode.allKw =
      filterStep fruitTable fruitCol
        ((parseKeywords kwInputMixed).filter (fun k => !k.isEmpty)) Mode.allKw :=
  c10_empty_token fruitTable fruitCol (parseKeywords kwInputMixed) (by decide)
    (by decide)
    (resultOf (filterStep fruitTable fruitCol (parseKeywords kwInputMixed)
      Mode.anyKw)) rfl

end KeywordFilter
